import Mathlib

/-!
# alidval: alphabetical id values for text strings

A shallow embedding of `src/alidval.c` and the properties of its encoder
(`calc_string_id_simple_nocase`) and scaler (`scale_string_id`).

Modelling conventions.

* A `double` is an exact rational (`ℚ`) in the encoder, the scaler and the
  parser: statements about them are about exact arithmetic. The scaler has a
  second embedding, `scale_string_id_double`, in which every operation is
  rounded to binary64 (`round_double`); it decides the claims that are about
  the doubles themselves.
* A `char` is an `Int` (its value after promotion to `int`, negative for a
  byte `>= 0x80` when `char` is signed). No statement restricts the range.
* A `const char *` is `Option (List Int)`: `none` is `NULL`, `some mem` points
  at memory holding the bytes `mem`, in order, every byte after them being
  NUL. The list may hold NUL bytes itself, so the bytes that follow a string's
  terminator in memory are part of the model.
* The globals `option_flags`, `scaled_lb` and `scaled_ub` are passed as
  arguments; `original_lb` and `original_ub` are never assigned and are
  constants.
* For `parse_option` and `main` the three assigned globals are a record
  (`Globals`) that is passed in and returned, and a bound is a `Dbl`: a
  rational or NaN, since `strtod` may yield NaN and the parser tests for it.
  `strtod` itself is a parameter. An array of strings with its count (`argc`,
  `argv`) is a list of strings.
-/

namespace Alidval

/-! ## Definitions -/

/-- Used as the base of the divisor (`#define SIMPLE_DIV_BASE 27.0`). -/
def SIMPLE_DIV_BASE : ℚ := 27

/-- Option flag `FIRST_CHAR_AL = 1<<0`. -/
def FIRST_CHAR_AL : Nat := 1 <<< 0

/-- Option flag `SCALE_OUTPUT_RANGE = 1<<1`. -/
def SCALE_OUTPUT_RANGE : Nat := 1 <<< 1

/-- Global `double original_lb = 0.0`. -/
def original_lb : ℚ := 0

/-- Global `double original_ub = 1.0`. -/
def original_ub : ℚ := 1

/-- Value of a character in the loop over the remaining characters
(lines 171-176): `c_id = c; if (c_id > 'Z') c_id -= 'a' - 'A';`
then `(c_id >= 'A' && c_id <= 'Z') ? c_id - 'A' + 1 : 0`. -/
def c_id_remaining (c : Int) : Int :=
  let c_id : Int := c
  let c_id : Int := if c_id > 90 then c_id - (97 - 65) else c_id
  if c_id ≥ 65 ∧ c_id ≤ 90 then c_id - 65 + 1 else 0

/-- Value of the first character under `FIRST_CHAR_AL` (lines 157-162):
`c_id = c; if (c_id > 'Z') c_id -= 'a' - 'A';`
then `(c_id >= 'A' && c_id <= 'Z') ? c_id - 'A' : 0`. -/
def c_id_first (c : Int) : Int :=
  let c_id : Int := c
  let c_id : Int := if c_id > 90 then c_id - (97 - 65) else c_id
  if c_id ≥ 65 ∧ c_id ≤ 90 then c_id - 65 else 0

/-- The loop `while ((c = *str++) != '\0') { ... }` of lines 170-179, started
with the pointer at `str` and the given `id` and `divisor`; the result is the
final `id`. An exhausted list reads the NUL that follows it. -/
def remaining_chars : List Int → ℚ → ℚ → ℚ
  | [], id, _ => id
  | c :: str, id, divisor =>
    if c = 0 then id
    else
      remaining_chars str (id + ((c_id_remaining c : Int) : ℚ) / divisor)
        (divisor * SIMPLE_DIV_BASE)

/-- Function `calc_string_id_simple_nocase` (lines 133-182). Under
`FIRST_CHAR_AL` the first byte is read and stepped over with `c = *str++`
without a test for NUL. -/
def calc_string_id_simple_nocase (option_flags : Nat) (str : Option (List Int)) : ℚ :=
  let id : ℚ := 0
  let divisor : ℚ := SIMPLE_DIV_BASE
  match str with
  | none => id
  | some str =>
    if option_flags &&& FIRST_CHAR_AL ≠ 0 then
      let c : Int := str.headD 0
      let str := str.tail
      let divisor := divisor - 1
      let id := ((c_id_first c : Int) : ℚ) / divisor
      let divisor := divisor * SIMPLE_DIV_BASE
      remaining_chars str id divisor
    else
      remaining_chars str id divisor

/-- Function `scale_string_id` (lines 188-201), with the globals `scaled_lb`
and `scaled_ub` as arguments. -/
def scale_string_id (scaled_lb scaled_ub : ℚ) (id : ℚ) : ℚ :=
  if scaled_lb > scaled_ub then
    (1 - ((id - original_lb) / (original_ub - original_lb))) *
      (scaled_lb - scaled_ub) + scaled_ub
  else
    ((id - original_lb) / (original_ub - original_lb)) *
      (scaled_ub - scaled_lb) + scaled_lb

/-- A byte is one of the 52 ASCII letters `'A'..'Z'`, `'a'..'z'`. -/
def isAsciiLetter (c : Int) : Prop :=
  (65 ≤ c ∧ c ≤ 90) ∨ (97 ≤ c ∧ c ≤ 122)

instance (c : Int) : Decidable (isAsciiLetter c) := by
  unfold isAsciiLetter; infer_instance

/-- Two bytes are equal up to the case of an ASCII letter: the same byte, or
the same letter in the other case. -/
def sameUpToCase (a b : Int) : Prop :=
  a = b ∨ (65 ≤ a ∧ a ≤ 90 ∧ b = a + 32) ∨ (97 ≤ a ∧ a ≤ 122 ∧ b = a - 32)

instance (a b : Int) : Decidable (sameUpToCase a b) := by
  unfold sameUpToCase; infer_instance

/-- The spec's 0-based letter position for the first character in stretch
mode: `'A'`/`'a'` is 0, ..., `'Z'`/`'z'` is 25, and a non-letter is 0. -/
def letterPosition (c : Int) : Int :=
  if 65 ≤ c ∧ c ≤ 90 then c - 65
  else if 97 ≤ c ∧ c ≤ 122 then c - 97
  else 0

/-- The spec's per-character value in standard mode: 0 for a non-letter,
`'A'`/`'a'` is 1, ..., `'Z'`/`'z'` is 26. -/
def letterValue (c : Int) : Int :=
  if 65 ≤ c ∧ c ≤ 90 then c - 65 + 1
  else if 97 ≤ c ∧ c ≤ 122 then c - 97 + 1
  else 0

/-- A `double` as the option parser holds it: a number, or NaN. Infinite
values are outside the model. -/
inductive Dbl where
  | num (x : ℚ)
  | nan
  deriving DecidableEq

/-- The test `x != x` on a double, true exactly for NaN. -/
def Dbl.isNaN : Dbl → Bool
  | Dbl.num _ => false
  | Dbl.nan => true

/-- The globals that the program assigns: `option_flags`, `scaled_lb` and
`scaled_ub`. -/
structure Globals where
  option_flags : Nat
  scaled_lb : Dbl
  scaled_ub : Dbl
  deriving DecidableEq

/-- The globals at program start: `option_flags = 0`; `scaled_lb` and
`scaled_ub` have no initialiser and static storage, so they are `0.0`. -/
def initial_globals : Globals := ⟨0, Dbl.num 0, Dbl.num 0⟩

/-- What a call `strtod(arg, &arg)` made with `errno == 0` leaves behind: the
value returned, the text from the end pointer on, and `errno`. -/
structure StrtodResult where
  value : Dbl
  endptr : List Int
  errno : Int

/-- Lines 109-116 of `parse_option` from just after `++arg`: the upper bound,
then `option_flags |= SCALE_OUTPUT_RANGE; return parse_count;`. -/
def parse_option_upper (strtod : List Int → StrtodResult) (g : Globals)
    (arg : List Int) (parse_count : Nat) : Nat × Globals :=
  if arg.headD 0 ≠ 0 then
    let r := strtod arg
    let g := { g with scaled_ub := r.value }
    let arg := r.endptr
    if r.errno ≠ 0 ∨ r.value.isNaN = true ∨ arg.headD 0 ≠ 0 then (0, g)
    else (parse_count, { g with option_flags := g.option_flags ||| SCALE_OUTPUT_RANGE })
  else (parse_count, { g with option_flags := g.option_flags ||| SCALE_OUTPUT_RANGE })

/-- Lines 101-116 of `parse_option`: `errno = 0`, the bounds are set to their
defaults, then the lower bound unless the text starts with `','`, the comma,
and the upper bound. -/
def parse_option_range (strtod : List Int → StrtodResult) (g : Globals)
    (arg : List Int) (parse_count : Nat) : Nat × Globals :=
  let g := { g with scaled_lb := Dbl.num original_lb, scaled_ub := Dbl.num original_ub }
  if arg.headD 0 ≠ 44 then
    let r := strtod arg
    let g := { g with scaled_lb := r.value }
    let arg := r.endptr
    if r.errno ≠ 0 ∨ r.value.isNaN = true ∨ arg.headD 0 ≠ 44 then (0, g)
    else parse_option_upper strtod g arg.tail parse_count
  else parse_option_upper strtod g arg.tail parse_count

/-- The loop `while (*arg != '\0') switch (*arg++)` of lines 90-121, with
`next` the strings after the current one (`argc < 2` when there is none).
`parse_count` is 1 until `-r` takes the next string. -/
def parse_option_flags (strtod : List Int → StrtodResult) (next : List (List Int)) :
    List Int → Globals → Nat × Globals
  | [], g => (1, g)
  | c :: arg, g =>
    if c = 0 then (1, g)
    else if c = 65 then
      parse_option_flags strtod next arg
        { g with option_flags := g.option_flags ||| FIRST_CHAR_AL }
    else if c = 114 then
      if arg.headD 0 = 0 then
        match next with
        | [] => (0, g)
        | arg :: _ => parse_option_range strtod g arg 2
      else parse_option_range strtod g arg 1
    else (0, g)

/-- Function `parse_option` (lines 84-122): the strings parsed (0 on failure)
and the globals afterwards. An empty `args` is `*args == NULL`. -/
def parse_option (strtod : List Int → StrtodResult) (g : Globals)
    (args : List (List Int)) : Nat × Globals :=
  match args with
  | [] => (0, g)
  | arg :: next =>
    if arg.headD 0 ≠ 45 then (0, g)
    else parse_option_flags strtod next arg.tail g

/-- A line of standard output: the usage text of `print_help`, or an id
printed by `print_string_id`. -/
inductive OutputLine where
  | usage
  | id (v : Dbl)
  deriving DecidableEq

/-- Lines 241-243 of `main`: the id of one string, scaled when
`SCALE_OUTPUT_RANGE` is set. A NaN bound makes the scaled id NaN. -/
def main_string_id (g : Globals) (str : List Int) : Dbl :=
  let string_id := calc_string_id_simple_nocase g.option_flags (some str)
  if g.option_flags &&& SCALE_OUTPUT_RANGE ≠ 0 then
    match g.scaled_lb, g.scaled_ub with
    | Dbl.num lb, Dbl.num ub => Dbl.num (scale_string_id lb ub string_id)
    | _, _ => Dbl.nan
  else Dbl.num string_id

/-- The loop of lines 240-248 of `main`: one line per string. -/
def main_strings (g : Globals) : List (List Int) → List OutputLine
  | [] => []
  | str :: rest => OutputLine.id (main_string_id g str) :: main_strings g rest

/-- Lines 218-248 of `main` with `args` the strings not yet looked at: the
option loop, the test `argc == 0`, and the loop over the strings. -/
def main_options (strtod : List Int → StrtodResult) (g : Globals)
    (args : List (List Int)) : List OutputLine :=
  match args with
  | [] => [OutputLine.usage]
  | arg :: rest =>
    if arg.headD 0 = 45 then
      let parse_count := (parse_option strtod g (arg :: rest)).1
      let g := (parse_option strtod g (arg :: rest)).2
      if h : parse_count = 0 then [OutputLine.usage]
      else
        have : (arg :: rest).length - parse_count < (arg :: rest).length := by
          simp only [List.length_cons]
          omega
        main_options strtod g ((arg :: rest).drop parse_count)
    else main_strings g (arg :: rest)
termination_by args.length
decreasing_by
  simp only [List.length_drop]
  assumption

/-- Function `main` (lines 211-251): the lines printed and the exit status.
`argv` holds the program name first; with `argc == 0` nothing is printed.
Each entry of `argv` is the memory from that pointer on: the string, its
terminator, and the bytes that follow it in memory when they are given (where
the strings of `argv` lie back to back, the next argument). -/
def main (strtod : List Int → StrtodResult) (argv : List (List Int)) :
    List OutputLine × Int :=
  match argv with
  | [] => ([], 0)
  | _ :: args => (main_options strtod initial_globals args, 0)

/-- A sample `strtod` for the concrete examples, covering unsigned decimal
integers only: the leading digits are the value and the end pointer is left
after them; without a leading digit nothing is converted. `errno` stays 0. -/
def strtod_digits (arg : List Int) : StrtodResult :=
  let digits := arg.takeWhile (fun c => 48 ≤ c ∧ c ≤ 57)
  let value : Int := digits.foldl (fun acc c => acc * 10 + (c - 48)) 0
  ⟨Dbl.num (value : ℚ), arg.drop digits.length, 0⟩

/-! ## Auxiliary lemmas -/

theorem c_id_remaining_nonneg (c : Int) : 0 ≤ c_id_remaining c := by
  unfold c_id_remaining
  simp only
  split_ifs <;> omega

theorem c_id_remaining_le (c : Int) : c_id_remaining c ≤ 26 := by
  unfold c_id_remaining
  simp only
  split_ifs <;> omega

theorem c_id_first_nonneg (c : Int) : 0 ≤ c_id_first c := by
  unfold c_id_first
  simp only
  split_ifs <;> omega

theorem c_id_first_le (c : Int) : c_id_first c ≤ 25 := by
  unfold c_id_first
  simp only
  split_ifs <;> omega

theorem c_id_first_eq_letterPosition (c : Int) : c_id_first c = letterPosition c := by
  unfold c_id_first letterPosition
  simp only
  split_ifs <;> omega

theorem c_id_remaining_of_not_letter (c : Int) (h : ¬ isAsciiLetter c) :
    c_id_remaining c = 0 := by
  unfold isAsciiLetter at h
  unfold c_id_remaining
  simp only
  split_ifs <;> omega

theorem c_id_first_of_not_letter (c : Int) (h : ¬ isAsciiLetter c) :
    c_id_first c = 0 := by
  unfold isAsciiLetter at h
  unfold c_id_first
  simp only
  split_ifs <;> omega

theorem c_id_remaining_sameUpToCase {a b : Int} (h : sameUpToCase a b) :
    c_id_remaining a = c_id_remaining b := by
  unfold sameUpToCase at h
  unfold c_id_remaining
  simp only
  split_ifs <;> omega

theorem c_id_first_sameUpToCase {a b : Int} (h : sameUpToCase a b) :
    c_id_first a = c_id_first b := by
  unfold sameUpToCase at h
  unfold c_id_first
  simp only
  split_ifs <;> omega

theorem sameUpToCase_zero_iff {a b : Int} (h : sameUpToCase a b) : a = 0 ↔ b = 0 := by
  unfold sameUpToCase at h
  omega

/-- The loop is affine in its accumulator and inverse-linear in its divisor:
started at `id` and `divisor` it adds to `id` what the loop started at `0.0`
and `27.0` produces, rescaled by `27 / divisor`. -/
theorem remaining_chars_eq (str : List Int) (id divisor : ℚ) :
    remaining_chars str id divisor
      = id + remaining_chars str 0 SIMPLE_DIV_BASE * SIMPLE_DIV_BASE / divisor := by
  induction str generalizing id divisor with
  | nil => simp [remaining_chars]
  | cons c str ih =>
    by_cases hc : c = 0
    · simp [remaining_chars, hc]
    · simp only [remaining_chars, hc, if_false]
      rw [ih (id + _) (divisor * SIMPLE_DIV_BASE), ih (0 + _) (SIMPLE_DIV_BASE * SIMPLE_DIV_BASE)]
      unfold SIMPLE_DIV_BASE
      by_cases hd : divisor = 0
      · subst hd; simp
      · field_simp
        ring

/-- One step of the loop from the standard start. -/
theorem remaining_chars_cons (c : Int) (str : List Int) (hc : c ≠ 0) :
    remaining_chars (c :: str) 0 SIMPLE_DIV_BASE
      = ((c_id_remaining c : Int) : ℚ) / 27 + remaining_chars str 0 SIMPLE_DIV_BASE / 27 := by
  simp only [remaining_chars, hc, if_false]
  rw [remaining_chars_eq]
  unfold SIMPLE_DIV_BASE
  field_simp
  ring

theorem remaining_chars_nonneg (str : List Int) :
    0 ≤ remaining_chars str 0 SIMPLE_DIV_BASE := by
  induction str with
  | nil => simp [remaining_chars]
  | cons c str ih =>
    by_cases hc : c = 0
    · simp [remaining_chars, hc]
    · rw [remaining_chars_cons c str hc]
      have h0 : (0 : ℚ) ≤ ((c_id_remaining c : Int) : ℚ) := by
        exact_mod_cast c_id_remaining_nonneg c
      positivity

theorem remaining_chars_le_one (str : List Int) :
    remaining_chars str 0 SIMPLE_DIV_BASE ≤ 1 := by
  induction str with
  | nil => simp [remaining_chars]
  | cons c str ih =>
    by_cases hc : c = 0
    · simp [remaining_chars, hc]
    · rw [remaining_chars_cons c str hc]
      have h1 : ((c_id_remaining c : Int) : ℚ) ≤ 26 := by
        exact_mod_cast c_id_remaining_le c
      linarith

/-- In standard mode the function is the loop from `0.0` and `27.0`. -/
theorem calc_standard (option_flags : Nat) (h : option_flags &&& FIRST_CHAR_AL = 0)
    (mem : List Int) :
    calc_string_id_simple_nocase option_flags (some mem)
      = remaining_chars mem 0 SIMPLE_DIV_BASE := by
  simp [calc_string_id_simple_nocase, h]

/-- In stretch mode the function is the first character's value over 26 plus
the loop over the bytes after the first, over 26. -/
theorem calc_stretch (option_flags : Nat) (h : option_flags &&& FIRST_CHAR_AL ≠ 0)
    (mem : List Int) :
    calc_string_id_simple_nocase option_flags (some mem)
      = ((c_id_first (mem.headD 0) : Int) : ℚ) / 26
        + remaining_chars mem.tail 0 SIMPLE_DIV_BASE / 26 := by
  simp only [calc_string_id_simple_nocase, h, ne_eq, not_false_eq_true, if_true]
  rw [remaining_chars_eq]
  unfold SIMPLE_DIV_BASE
  norm_num
  field_simp
  ring

/-- With the first byte NUL (the empty string), standard mode returns `0.0`
whatever follows the terminator. -/
theorem calc_standard_empty (option_flags : Nat) (h : option_flags &&& FIRST_CHAR_AL = 0)
    (after : List Int) :
    calc_string_id_simple_nocase option_flags (some (0 :: after)) = 0 := by
  rw [calc_standard option_flags h]
  simp [remaining_chars]

/-- The loop returns its starting `id` when every byte up to the first NUL is
a non-letter. -/
theorem remaining_chars_non_letters (s after : List Int)
    (hs : ∀ c ∈ s, ¬ isAsciiLetter c) :
    remaining_chars (s ++ 0 :: after) 0 SIMPLE_DIV_BASE = 0 := by
  induction s with
  | nil => simp [remaining_chars]
  | cons c s ih =>
    by_cases hc : c = 0
    · simp [remaining_chars, hc]
    · have hc0 : c_id_remaining c = 0 :=
        c_id_remaining_of_not_letter c (hs c (List.mem_cons_self c s))
      have hs2 : ∀ d ∈ s, ¬ isAsciiLetter d :=
        fun d hd => hs d (List.mem_cons_of_mem c hd)
      rw [List.cons_append, remaining_chars_cons c _ hc, ih hs2, hc0]
      simp

/-- The loop returns `0.0` from the standard start on memory that holds no
letter at all. -/
theorem remaining_chars_all_non_letters (mem : List Int)
    (h : ∀ c ∈ mem, ¬ isAsciiLetter c) :
    remaining_chars mem 0 SIMPLE_DIV_BASE = 0 := by
  induction mem with
  | nil => simp [remaining_chars]
  | cons c l ih =>
    by_cases hc : c = 0
    · simp [remaining_chars, hc]
    · have hc0 : c_id_remaining c = 0 :=
        c_id_remaining_of_not_letter c (h c (List.mem_cons_self c l))
      have hl : ∀ d ∈ l, ¬ isAsciiLetter d :=
        fun d hd => h d (List.mem_cons_of_mem c hd)
      rw [remaining_chars_cons c l hc, ih hl, hc0]
      simp

theorem remaining_chars_sameUpToCase {s1 s2 : List Int}
    (h : List.Forall₂ sameUpToCase s1 s2) (id divisor : ℚ) :
    remaining_chars s1 id divisor = remaining_chars s2 id divisor := by
  induction h generalizing id divisor with
  | nil => rfl
  | @cons a b l1 l2 hab _ ih =>
    by_cases ha : a = 0
    · have hb : b = 0 := (sameUpToCase_zero_iff hab).mp ha
      simp [remaining_chars, ha, hb]
    · have hb : b ≠ 0 := fun hb => ha ((sameUpToCase_zero_iff hab).mpr hb)
      simp only [remaining_chars, ha, hb, if_false]
      rw [c_id_remaining_sameUpToCase hab]
      exact ih _ _

/-! ## The encoder -/

/-- The id is never negative. -/
theorem calc_string_id_nonneg (option_flags : Nat) (str : Option (List Int)) :
    0 ≤ calc_string_id_simple_nocase option_flags str := by
  cases str with
  | none => simp [calc_string_id_simple_nocase]
  | some mem =>
    by_cases h : option_flags &&& FIRST_CHAR_AL = 0
    · rw [calc_standard option_flags h]
      exact remaining_chars_nonneg mem
    · rw [calc_stretch option_flags h]
      have h0 : (0 : ℚ) ≤ ((c_id_first (mem.headD 0) : Int) : ℚ) := by
        exact_mod_cast c_id_first_nonneg _
      have h2 := remaining_chars_nonneg mem.tail
      positivity

/-- The id is at most 1: in standard mode each step adds at most `26/27` of
the place left, in stretch mode the first character adds at most `25/26`. -/
theorem calc_string_id_le_one (option_flags : Nat) (str : Option (List Int)) :
    calc_string_id_simple_nocase option_flags str ≤ 1 := by
  cases str with
  | none => simp [calc_string_id_simple_nocase]
  | some mem =>
    by_cases h : option_flags &&& FIRST_CHAR_AL = 0
    · rw [calc_standard option_flags h]
      exact remaining_chars_le_one mem
    · rw [calc_stretch option_flags h]
      have h1 : ((c_id_first (mem.headD 0) : Int) : ℚ) ≤ 25 := by
        exact_mod_cast c_id_first_le _
      have h3 := remaining_chars_le_one mem.tail
      linarith

/-- C1: for every pointer (NULL, or memory holding any bytes) and every value
of the option flags, so in standard mode and in stretch mode alike, the id
returned by `calc_string_id_simple_nocase` lies in `[0, 1]`. -/
theorem calc_string_id_in_unit_interval (option_flags : Nat) (str : Option (List Int)) :
    0 ≤ calc_string_id_simple_nocase option_flags str ∧
      calc_string_id_simple_nocase option_flags str ≤ 1 :=
  ⟨calc_string_id_nonneg option_flags str, calc_string_id_le_one option_flags str⟩

/-- C2: two memories of equal length whose bytes agree position by position up
to the case of ASCII letters give the same id, in standard mode and in stretch
mode. -/
theorem calc_string_id_ignores_case (option_flags : Nat) (s1 s2 : List Int)
    (h : List.Forall₂ sameUpToCase s1 s2) :
    calc_string_id_simple_nocase option_flags (some s1)
      = calc_string_id_simple_nocase option_flags (some s2) := by
  by_cases hf : option_flags &&& FIRST_CHAR_AL = 0
  · rw [calc_standard option_flags hf, calc_standard option_flags hf]
    exact remaining_chars_sameUpToCase h _ _
  · rw [calc_stretch option_flags hf, calc_stretch option_flags hf]
    cases h with
    | nil => rfl
    | cons hab hrest =>
      simp only [List.headD_cons, List.tail_cons]
      rw [c_id_first_sameUpToCase hab, remaining_chars_sameUpToCase hrest]

/-- C2, at the strings "Hi" and "hI" in standard mode. -/
theorem calc_string_id_ignores_case_witness :
    List.Forall₂ sameUpToCase [72, 105] [104, 73] ∧
      calc_string_id_simple_nocase 0 (some [72, 105])
        = calc_string_id_simple_nocase 0 (some [104, 73]) :=
  ⟨List.Forall₂.cons (by decide) (List.Forall₂.cons (by decide) List.Forall₂.nil),
   calc_string_id_ignores_case 0 [72, 105] [104, 73]
    (List.Forall₂.cons (by decide) (List.Forall₂.cons (by decide) List.Forall₂.nil))⟩

/-- A string `s` none of whose bytes is an ASCII letter, stored with its
terminating NUL and any bytes `after` it, encodes to `0.0` in standard mode,
and in stretch mode when it is not empty; the empty string in stretch mode,
whose terminator is stepped over, does so only when no letter follows it. A
byte is given a non-zero value exactly when it is one of the ASCII letters. -/
theorem calc_string_id_non_letters (option_flags : Nat) (s after : List Int)
    (hs : ∀ c ∈ s, ¬ isAsciiLetter c)
    (hafter : s = [] → option_flags &&& FIRST_CHAR_AL ≠ 0 → ∀ c ∈ after, ¬ isAsciiLetter c) :
    calc_string_id_simple_nocase option_flags (some (s ++ 0 :: after)) = 0 ∧
      ∀ c : Int, c_id_remaining c ≠ 0 ↔ isAsciiLetter c := by
  constructor
  · by_cases hf : option_flags &&& FIRST_CHAR_AL = 0
    · rw [calc_standard option_flags hf]
      exact remaining_chars_non_letters s after hs
    · rw [calc_stretch option_flags hf]
      cases s with
      | nil =>
        have h2 := remaining_chars_all_non_letters after (hafter rfl hf)
        simp [c_id_first, h2]
      | cons c s =>
        have hc0 : c_id_first c = 0 :=
          c_id_first_of_not_letter c (hs c (List.mem_cons_self c s))
        have hs2 : ∀ d ∈ s, ¬ isAsciiLetter d :=
          fun d hd => hs d (List.mem_cons_of_mem c hd)
        simp only [List.cons_append, List.headD_cons, List.tail_cons]
        rw [hc0, remaining_chars_non_letters s after hs2]
        simp
  · intro c
    unfold c_id_remaining isAsciiLetter
    simp only
    split_ifs <;> omega

/-- C3: in stretch mode the empty string, none of whose bytes is a letter,
followed in memory by the string "z" (the bytes NUL, 'z', NUL) gets the id
`26 / (26 * 27) = 1 / 27`, not `0.0`: the terminator is stepped over as the
first character and the letter after it is given its value. -/
theorem calc_string_id_empty_string_of_non_letters_not_zero :
    (∀ c ∈ ([] : List Int), ¬ isAsciiLetter c) ∧
      calc_string_id_simple_nocase FIRST_CHAR_AL (some ([] ++ 0 :: [122, 0])) = 1 / 27 ∧
      calc_string_id_simple_nocase FIRST_CHAR_AL (some ([] ++ 0 :: [122, 0])) ≠ 0 := by
  have h : calc_string_id_simple_nocase FIRST_CHAR_AL (some ([] ++ 0 :: [122, 0])) = 1 / 27 := by
    norm_num [calc_string_id_simple_nocase, remaining_chars, c_id_first, c_id_remaining,
      FIRST_CHAR_AL, SIMPLE_DIV_BASE]
  refine ⟨by simp, h, ?_⟩
  rw [h]
  norm_num

/-- In stretch mode, when the first byte is NUL (the empty string), the id is
that of the bytes after the terminator, over 26. -/
theorem calc_stretch_empty (option_flags : Nat) (h : option_flags &&& FIRST_CHAR_AL ≠ 0)
    (after : List Int) :
    calc_string_id_simple_nocase option_flags (some (0 :: after))
      = remaining_chars after 0 SIMPLE_DIV_BASE / 26 := by
  rw [calc_stretch option_flags h]
  simp [c_id_first]

/-- C4: in stretch mode the empty string followed in memory by the string "B"
(the bytes NUL, 'B', NUL) gets the id `2 / (26 * 27) = 1 / 351`, not `0.0`:
the terminator is stepped over as the first character and the loop reads the
bytes after it. -/
theorem calc_string_id_empty_stretch_reads_past_nul :
    calc_string_id_simple_nocase FIRST_CHAR_AL (some [0, 66, 0]) = 1 / 351 ∧
      calc_string_id_simple_nocase FIRST_CHAR_AL (some [0, 66, 0]) ≠ 0 := by
  have h : calc_string_id_simple_nocase FIRST_CHAR_AL (some [0, 66, 0]) = 1 / 351 := by
    norm_num [calc_string_id_simple_nocase, remaining_chars, c_id_first, c_id_remaining,
      FIRST_CHAR_AL, SIMPLE_DIV_BASE]
  exact ⟨h, by rw [h]; norm_num⟩

/-- The id of a one-character string in standard mode is the character's
value over 27, whatever follows the terminator. -/
theorem calc_standard_single (option_flags : Nat) (h : option_flags &&& FIRST_CHAR_AL = 0)
    (c : Int) (hc : c ≠ 0) (after : List Int) :
    calc_string_id_simple_nocase option_flags (some (c :: 0 :: after))
      = ((c_id_remaining c : Int) : ℚ) / 27 := by
  rw [calc_standard option_flags h, remaining_chars_cons c _ hc]
  simp [remaining_chars]

/-- C5: in standard mode the one-letter strings are strictly increasing in
alphabetical order, for uppercase letters and for lowercase letters: if `x`
comes before `y` in `'A'..'Z'` (or in `'a'..'z'`) then the id of the string
`x` is strictly less than the id of the string `y`, whatever follows the
terminators in memory. -/
theorem calc_string_id_single_letter_strict_mono (option_flags : Nat)
    (hstd : option_flags &&& FIRST_CHAR_AL = 0) (x y : Int) (after1 after2 : List Int)
    (h : (65 ≤ x ∧ x < y ∧ y ≤ 90) ∨ (97 ≤ x ∧ x < y ∧ y ≤ 122)) :
    calc_string_id_simple_nocase option_flags (some (x :: 0 :: after1))
      < calc_string_id_simple_nocase option_flags (some (y :: 0 :: after2)) := by
  have hx : x ≠ 0 := by omega
  have hy : y ≠ 0 := by omega
  rw [calc_standard_single option_flags hstd x hx, calc_standard_single option_flags hstd y hy]
  have hlt : c_id_remaining x < c_id_remaining y := by
    unfold c_id_remaining
    simp only
    split_ifs <;> omega
  have hq : ((c_id_remaining x : Int) : ℚ) < ((c_id_remaining y : Int) : ℚ) := by
    exact_mod_cast hlt
  linarith

/-- C5, at "A" and "B" with no flag set. -/
theorem calc_string_id_single_letter_strict_mono_witness :
    calc_string_id_simple_nocase 0 (some [65, 0]) < calc_string_id_simple_nocase 0 (some [66, 0]) :=
  calc_string_id_single_letter_strict_mono 0 (by decide) 65 66 [] [] (by decide)

/-- C6: in stretch mode, for a first byte `c` and any bytes `rest` after it,
the id of `c` followed by `rest` is `p(c) / 26` plus the standard-mode id of
`rest` over 26, where `p` is the 0-based letter position (0 for a non-letter).
So a leading 'A' gives the standard-mode id of the rest over 26, a leading
non-letter gives the same id as a leading 'A', and the string "A" gives `0.0`.
The first byte need not be non-NUL: the equation holds for every byte. -/
theorem calc_string_id_stretch_first_char (option_flags std_flags : Nat)
    (hstretch : option_flags &&& FIRST_CHAR_AL ≠ 0)
    (hstd : std_flags &&& FIRST_CHAR_AL = 0)
    (c : Int) (rest : List Int) :
    calc_string_id_simple_nocase option_flags (some (c :: rest))
        = ((letterPosition c : Int) : ℚ) / 26
          + calc_string_id_simple_nocase std_flags (some rest) / 26 ∧
      calc_string_id_simple_nocase option_flags (some (65 :: rest))
        = calc_string_id_simple_nocase std_flags (some rest) / 26 ∧
      (¬ isAsciiLetter c →
        calc_string_id_simple_nocase option_flags (some (c :: rest))
          = calc_string_id_simple_nocase option_flags (some (65 :: rest))) ∧
      calc_string_id_simple_nocase option_flags (some [65]) = 0 := by
  refine ⟨?_, ?_, ?_, ?_⟩
  · rw [calc_stretch option_flags hstretch, calc_standard std_flags hstd,
      c_id_first_eq_letterPosition]
    simp
  · rw [calc_stretch option_flags hstretch, calc_standard std_flags hstd]
    simp [c_id_first]
  · intro hnl
    rw [calc_stretch option_flags hstretch, calc_stretch option_flags hstretch]
    simp only [List.headD_cons, List.tail_cons]
    rw [c_id_first_of_not_letter c hnl]
    simp [c_id_first]
  · rw [calc_stretch option_flags hstretch]
    simp [c_id_first, remaining_chars]

/-- C6, at the string "Hi" with `-A`, against the string "i" with no flag. -/
theorem calc_string_id_stretch_first_char_witness :
    calc_string_id_simple_nocase 1 (some [72, 105])
      = ((letterPosition 72 : Int) : ℚ) / 26
        + calc_string_id_simple_nocase 0 (some [105]) / 26 :=
  (calc_string_id_stretch_first_char 1 0 (by decide) (by decide) 72 [105]).1

/-! ## The scaler -/

/-- C7: with `scaled_lb = 0.0` and `scaled_ub = 1.0` the scaler returns its
argument, for every id (in `[0, 1]` or not). -/
theorem scale_string_id_identity_bounds (id : ℚ) :
    scale_string_id 0 1 id = id := by
  simp [scale_string_id, original_lb, original_ub]

/-- C9: with `scaled_lb = scaled_ub = c` the scaler returns `c` for every
id. -/
theorem scale_string_id_degenerate (c id : ℚ) :
    scale_string_id c c id = c := by
  simp [scale_string_id]

theorem c_id_remaining_eq_letterValue (c : Int) : c_id_remaining c = letterValue c := by
  unfold c_id_remaining letterValue
  simp only
  split_ifs <;> omega

theorem c_id_remaining_eq_zero_iff (c : Int) : c_id_remaining c = 0 ↔ ¬ isAsciiLetter c := by
  unfold c_id_remaining isAsciiLetter
  simp only
  split_ifs <;> omega

/-- The loop over a string without NUL followed by more bytes: the id of the
string plus the id of what follows, shifted by the length of the string. -/
theorem remaining_chars_append (s t : List Int) (hs : ∀ c ∈ s, c ≠ 0) :
    remaining_chars (s ++ t) 0 SIMPLE_DIV_BASE
      = remaining_chars s 0 SIMPLE_DIV_BASE
        + remaining_chars t 0 SIMPLE_DIV_BASE / 27 ^ s.length := by
  induction s with
  | nil => simp [remaining_chars]
  | cons c s ih =>
    have hc : c ≠ 0 := hs c (List.mem_cons_self c s)
    have hs2 : ∀ d ∈ s, d ≠ 0 := fun d hd => hs d (List.mem_cons_of_mem c hd)
    rw [List.cons_append, remaining_chars_cons c _ hc, remaining_chars_cons c _ hc, ih hs2,
      List.length_cons, pow_succ]
    field_simp
    ring

/-- The loop stops at a NUL: the bytes after it do not matter. -/
theorem remaining_chars_terminated (s after : List Int) (hs : ∀ c ∈ s, c ≠ 0) :
    remaining_chars (s ++ 0 :: after) 0 SIMPLE_DIV_BASE
      = remaining_chars s 0 SIMPLE_DIV_BASE := by
  rw [remaining_chars_append s _ hs]
  simp [remaining_chars]

theorem remaining_chars_lt_one (str : List Int) :
    remaining_chars str 0 SIMPLE_DIV_BASE < 1 := by
  induction str with
  | nil => simp [remaining_chars]
  | cons c str ih =>
    by_cases hc : c = 0
    · simp [remaining_chars, hc]
    · rw [remaining_chars_cons c str hc]
      have h1 : ((c_id_remaining c : Int) : ℚ) ≤ 26 := by
        exact_mod_cast c_id_remaining_le c
      linarith

/-- The id of a string without NUL is `0.0` exactly when it holds no letter. -/
theorem remaining_chars_eq_zero_iff (e : List Int) (he : ∀ c ∈ e, c ≠ 0) :
    remaining_chars e 0 SIMPLE_DIV_BASE = 0 ↔ ∀ c ∈ e, ¬ isAsciiLetter c := by
  induction e with
  | nil => simp [remaining_chars]
  | cons c e ih =>
    have hc : c ≠ 0 := he c (List.mem_cons_self c e)
    have he2 : ∀ d ∈ e, d ≠ 0 := fun d hd => he d (List.mem_cons_of_mem c hd)
    have h0 : (0 : ℚ) ≤ ((c_id_remaining c : Int) : ℚ) := by
      exact_mod_cast c_id_remaining_nonneg c
    have h1 := remaining_chars_nonneg e
    rw [remaining_chars_cons c e hc]
    constructor
    · intro h
      have hv : ((c_id_remaining c : Int) : ℚ) = 0 := by linarith
      have hr : remaining_chars e 0 SIMPLE_DIV_BASE = 0 := by linarith
      have hv2 : c_id_remaining c = 0 := by exact_mod_cast hv
      intro d hd
      rcases List.mem_cons.mp hd with hdc | hde
      · rw [hdc]
        exact (c_id_remaining_eq_zero_iff c).mp hv2
      · exact (ih he2).mp hr d hde
    · intro h
      have hv2 : c_id_remaining c = 0 :=
        (c_id_remaining_eq_zero_iff c).mpr (h c (List.mem_cons_self c e))
      have hr : remaining_chars e 0 SIMPLE_DIV_BASE = 0 :=
        (ih he2).mpr (fun d hd => h d (List.mem_cons_of_mem c hd))
      rw [hv2, hr]
      simp

/-- Strings without NUL whose characters have the same values position by
position have the same id. -/
theorem remaining_chars_same_values {p1 p2 : List Int}
    (h : List.Forall₂ (fun a b => c_id_remaining a = c_id_remaining b) p1 p2)
    (h1 : ∀ c ∈ p1, c ≠ 0) (h2 : ∀ c ∈ p2, c ≠ 0) :
    remaining_chars p1 0 SIMPLE_DIV_BASE = remaining_chars p2 0 SIMPLE_DIV_BASE := by
  induction h with
  | nil => rfl
  | @cons a b l1 l2 hab _ ih =>
    have ha : a ≠ 0 := h1 a (List.mem_cons_self a l1)
    have hb : b ≠ 0 := h2 b (List.mem_cons_self b l2)
    rw [remaining_chars_cons a l1 ha, remaining_chars_cons b l2 hb, hab,
      ih (fun d hd => h1 d (List.mem_cons_of_mem a hd))
        (fun d hd => h2 d (List.mem_cons_of_mem b hd))]

/-- The id of a string without NUL as the sum of its place values. -/
theorem remaining_chars_eq_sum (s : List Int) (hs : ∀ c ∈ s, c ≠ 0) :
    remaining_chars s 0 SIMPLE_DIV_BASE
      = ∑ i : Fin s.length, ((letterValue (s.get i) : Int) : ℚ) / 27 ^ (i.val + 1) := by
  induction s with
  | nil => simp [remaining_chars]
  | cons c s ih =>
    have hc : c ≠ 0 := hs c (List.mem_cons_self c s)
    have hs2 : ∀ d ∈ s, d ≠ 0 := fun d hd => hs d (List.mem_cons_of_mem c hd)
    rw [remaining_chars_cons c s hc, ih hs2, c_id_remaining_eq_letterValue]
    simp only [List.length_cons]
    rw [Fin.sum_univ_succ, Finset.sum_div]
    simp only [Fin.val_zero, Fin.val_succ, List.get_cons_zero, List.get_cons_succ]
    congr 1
    apply Finset.sum_congr rfl
    intro i _
    rw [div_div, ← pow_succ]
    rfl

/-- C16: in standard mode the id of a string `s` without NUL, stored with its
terminator and any bytes after it, is its base-27 positional value: the sum
over the positions `i = 1..n` of `v(s_i) / 27^i`, with `v` 0 for a non-letter
and 1..26 for the letters, case ignored. -/
theorem calc_string_id_base27 (option_flags : Nat)
    (hstd : option_flags &&& FIRST_CHAR_AL = 0) (s after : List Int)
    (hs : ∀ c ∈ s, c ≠ 0) :
    calc_string_id_simple_nocase option_flags (some (s ++ 0 :: after))
      = ∑ i : Fin s.length, ((letterValue (s.get i) : Int) : ℚ) / 27 ^ (i.val + 1) := by
  rw [calc_standard option_flags hstd, remaining_chars_terminated s after hs,
    remaining_chars_eq_sum s hs]

/-- C16, at the string "Hi": `8/27 + 9/27^2`. -/
theorem calc_string_id_base27_witness :
    calc_string_id_simple_nocase 0 (some ([72, 105] ++ 0 :: []))
      = ∑ i : Fin ([72, 105] : List Int).length,
          ((letterValue (([72, 105] : List Int).get i) : Int) : ℚ) / 27 ^ (i.val + 1) :=
  calc_string_id_base27 0 (by decide) [72, 105] [] (by decide)

/-- In standard mode, and in stretch mode for a non-empty string, the id does
not depend on the bytes after the terminator. -/
theorem calc_string_id_ignores_after (option_flags : Nat) (s after1 after2 : List Int)
    (hs : ∀ c ∈ s, c ≠ 0) (h : option_flags &&& FIRST_CHAR_AL = 0 ∨ s ≠ []) :
    calc_string_id_simple_nocase option_flags (some (s ++ 0 :: after1))
      = calc_string_id_simple_nocase option_flags (some (s ++ 0 :: after2)) := by
  by_cases hf : option_flags &&& FIRST_CHAR_AL = 0
  · rw [calc_standard option_flags hf, calc_standard option_flags hf,
      remaining_chars_terminated s after1 hs, remaining_chars_terminated s after2 hs]
  · rw [calc_stretch option_flags hf, calc_stretch option_flags hf]
    cases s with
    | nil =>
      rcases h with h | h
      · exact absurd h hf
      · exact absurd rfl h
    | cons c s =>
      have hs2 : ∀ d ∈ s, d ≠ 0 := fun d hd => hs d (List.mem_cons_of_mem c hd)
      simp only [List.cons_append, List.headD_cons, List.tail_cons]
      rw [remaining_chars_terminated s after1 hs2, remaining_chars_terminated s after2 hs2]

/-- C17: in stretch mode two buffers that both hold the empty string and
differ only after its terminator, NUL 'B' NUL and NUL 'C' NUL, get different
ids (`1/351` and `1/234`): the bytes after the first NUL are read. -/
theorem calc_string_id_stretch_depends_on_bytes_after_nul :
    calc_string_id_simple_nocase FIRST_CHAR_AL (some [0, 66, 0]) = 1 / 351 ∧
      calc_string_id_simple_nocase FIRST_CHAR_AL (some [0, 67, 0]) = 1 / 234 ∧
      calc_string_id_simple_nocase FIRST_CHAR_AL (some [0, 66, 0])
        ≠ calc_string_id_simple_nocase FIRST_CHAR_AL (some [0, 67, 0]) := by
  have h1 : calc_string_id_simple_nocase FIRST_CHAR_AL (some [0, 66, 0]) = 1 / 351 := by
    norm_num [calc_string_id_simple_nocase, remaining_chars, c_id_first, c_id_remaining,
      FIRST_CHAR_AL, SIMPLE_DIV_BASE]
  have h2 : calc_string_id_simple_nocase FIRST_CHAR_AL (some [0, 67, 0]) = 1 / 234 := by
    norm_num [calc_string_id_simple_nocase, remaining_chars, c_id_first, c_id_remaining,
      FIRST_CHAR_AL, SIMPLE_DIV_BASE]
  refine ⟨h1, h2, ?_⟩
  rw [h1, h2]
  norm_num

/-- C18: in standard mode, for a string `s` without NUL and any bytes `t`
appended to it, the id grows by at least 0 and by less than `27^(-length s)`;
so what follows the 11th character changes the id by less than `27^(-11)`. -/
theorem calc_string_id_tail_contribution (option_flags : Nat)
    (hstd : option_flags &&& FIRST_CHAR_AL = 0) (s t : List Int)
    (hs : ∀ c ∈ s, c ≠ 0) :
    0 ≤ calc_string_id_simple_nocase option_flags (some (s ++ t))
          - calc_string_id_simple_nocase option_flags (some s) ∧
      calc_string_id_simple_nocase option_flags (some (s ++ t))
          - calc_string_id_simple_nocase option_flags (some s) < 1 / 27 ^ s.length ∧
      (s.length = 11 →
        calc_string_id_simple_nocase option_flags (some (s ++ t))
          - calc_string_id_simple_nocase option_flags (some s) < 1 / 27 ^ 11) := by
  rw [calc_standard option_flags hstd, calc_standard option_flags hstd,
    remaining_chars_append s t hs]
  have h0 := remaining_chars_nonneg t
  have h1 := remaining_chars_lt_one t
  have hpow : (0 : ℚ) < 27 ^ s.length := by positivity
  have hlt : remaining_chars t 0 SIMPLE_DIV_BASE / 27 ^ s.length < 1 / 27 ^ s.length :=
    div_lt_div_of_pos_right h1 hpow
  have hnn : 0 ≤ remaining_chars t 0 SIMPLE_DIV_BASE / 27 ^ s.length := by positivity
  refine ⟨by linarith, by linarith, ?_⟩
  intro hlen
  rw [← hlen]
  linarith

/-- C18, at "Hi" followed by "z". -/
theorem calc_string_id_tail_contribution_witness :
    calc_string_id_simple_nocase 0 (some ([72, 105] ++ [122]))
        - calc_string_id_simple_nocase 0 (some [72, 105])
      < 1 / 27 ^ ([72, 105] : List Int).length :=
  (calc_string_id_tail_contribution 0 (by decide) [72, 105] [122] (by decide)).2.1

/-- C19: in standard mode the id is monotone for the lexicographic order of
the character values. If two strings have prefixes without NUL whose values
agree position by position, and then a character of smaller value in the
first than in the second, the first id is strictly smaller, whatever follows;
and appending characters to a string does not lower its id, and leaves it
unchanged exactly when none of the appended characters is a letter. -/
theorem calc_string_id_lex_mono (option_flags : Nat)
    (hstd : option_flags &&& FIRST_CHAR_AL = 0) :
    (∀ (p1 p2 : List Int) (a b : Int) (s t : List Int),
        (∀ c ∈ p1, c ≠ 0) → (∀ c ∈ p2, c ≠ 0) →
        List.Forall₂ (fun x y => c_id_remaining x = c_id_remaining y) p1 p2 →
        c_id_remaining a < c_id_remaining b →
        calc_string_id_simple_nocase option_flags (some (p1 ++ a :: s))
          < calc_string_id_simple_nocase option_flags (some (p2 ++ b :: t))) ∧
      (∀ (s e : List Int), (∀ c ∈ s, c ≠ 0) → (∀ c ∈ e, c ≠ 0) →
        calc_string_id_simple_nocase option_flags (some s)
            ≤ calc_string_id_simple_nocase option_flags (some (s ++ e)) ∧
          (calc_string_id_simple_nocase option_flags (some s)
              = calc_string_id_simple_nocase option_flags (some (s ++ e))
            ↔ ∀ c ∈ e, ¬ isAsciiLetter c)) := by
  constructor
  · intro p1 p2 a b s t h1 h2 hp hab
    rw [calc_standard option_flags hstd, calc_standard option_flags hstd,
      remaining_chars_append p1 _ h1, remaining_chars_append p2 _ h2,
      remaining_chars_same_values hp h1 h2, hp.length_eq]
    have hpow : (0 : ℚ) < 27 ^ p2.length := by positivity
    have hb : b ≠ 0 := by
      intro hb0
      rw [hb0] at hab
      have h0 := c_id_remaining_nonneg a
      have hz : c_id_remaining 0 = 0 := by decide
      omega
    have hstep : remaining_chars (a :: s) 0 SIMPLE_DIV_BASE
        < remaining_chars (b :: t) 0 SIMPLE_DIV_BASE := by
      rw [remaining_chars_cons b t hb]
      have hbq : ((c_id_remaining a : Int) : ℚ) + 1 ≤ ((c_id_remaining b : Int) : ℚ) := by
        exact_mod_cast hab
      have haq : (0 : ℚ) ≤ ((c_id_remaining a : Int) : ℚ) := by
        exact_mod_cast c_id_remaining_nonneg a
      have ht := remaining_chars_nonneg t
      by_cases ha : a = 0
      · simp only [remaining_chars, ha, if_true]
        have : (0 : ℚ) < ((c_id_remaining b : Int) : ℚ) / 27 := by
          apply div_pos <;> linarith
        have : (0 : ℚ) ≤ remaining_chars t 0 SIMPLE_DIV_BASE / 27 := by positivity
        linarith
      · rw [remaining_chars_cons a s ha]
        have hs1 := remaining_chars_lt_one s
        linarith
    have := div_lt_div_of_pos_right hstep hpow
    linarith
  · intro s e hs he
    rw [calc_standard option_flags hstd, calc_standard option_flags hstd,
      remaining_chars_append s e hs]
    have hpow : (0 : ℚ) < 27 ^ s.length := by positivity
    have h0 := remaining_chars_nonneg e
    have hnn : 0 ≤ remaining_chars e 0 SIMPLE_DIV_BASE / 27 ^ s.length := by positivity
    refine ⟨by linarith, ?_⟩
    rw [← remaining_chars_eq_zero_iff e he]
    constructor
    · intro h
      have hz : remaining_chars e 0 SIMPLE_DIV_BASE / 27 ^ s.length = 0 := by linarith
      rcases div_eq_zero_iff.mp hz with h3 | h3
      · exact h3
      · exact absurd h3 (ne_of_gt hpow)
    · intro h
      rw [h]
      simp

/-- C19, at "Ab" before "B" and at "Hi" against "Hi1". -/
theorem calc_string_id_lex_mono_witness :
    calc_string_id_simple_nocase 0 (some ([] ++ 65 :: [98]))
        < calc_string_id_simple_nocase 0 (some ([] ++ 66 :: [])) ∧
      calc_string_id_simple_nocase 0 (some [72, 105])
        = calc_string_id_simple_nocase 0 (some ([72, 105] ++ [49])) :=
  ⟨(calc_string_id_lex_mono 0 (by decide)).1 [] [] 65 66 [98] [] (by decide) (by decide)
      List.Forall₂.nil (by decide),
   (((calc_string_id_lex_mono 0 (by decide)).2 [72, 105] [49] (by decide) (by decide)).2).mpr
      (by decide)⟩

/-! ## The scaler, continued -/

/-- Both branches of the scaler are the affine map `lb + id * (ub - lb)`. -/
theorem scale_string_id_eq (scaled_lb scaled_ub id : ℚ) :
    scale_string_id scaled_lb scaled_ub id = scaled_lb + id * (scaled_ub - scaled_lb) := by
  unfold scale_string_id original_lb original_ub
  split_ifs <;> ring

/-- C20: the reversed-order expression of the scaler equals the normal-order
expression for all ids and bounds, so the scaler returns
`scaled_lb + id * (scaled_ub - scaled_lb)` whichever branch is taken. -/
theorem scale_string_id_branches_agree (scaled_lb scaled_ub id : ℚ) :
    (1 - ((id - original_lb) / (original_ub - original_lb))) *
          (scaled_lb - scaled_ub) + scaled_ub
        = ((id - original_lb) / (original_ub - original_lb)) *
          (scaled_ub - scaled_lb) + scaled_lb ∧
      scale_string_id scaled_lb scaled_ub id = scaled_lb + id * (scaled_ub - scaled_lb) := by
  refine ⟨?_, scale_string_id_eq scaled_lb scaled_ub id⟩
  unfold original_lb original_ub
  ring

/-! ## End-to-end scenarios -/

theorem main_options_nil (strtod : List Int → StrtodResult) (g : Globals) :
    main_options strtod g [] = [OutputLine.usage] := by
  rw [main_options]

/-- One round of the option loop of `main` on a string that starts with
`'-'`. -/
theorem main_options_option (strtod : List Int → StrtodResult) (g : Globals)
    (arg : List Int) (rest : List (List Int)) (h : arg.headD 0 = 45) :
    main_options strtod g (arg :: rest)
      = if (parse_option strtod g (arg :: rest)).1 = 0 then [OutputLine.usage]
        else main_options strtod (parse_option strtod g (arg :: rest)).2
          ((arg :: rest).drop (parse_option strtod g (arg :: rest)).1) := by
  rw [main_options]
  simp only [h, if_true]
  split_ifs <;> rfl

/-- The option loop of `main` ends at the first string that does not start
with `'-'`. -/
theorem main_options_string (strtod : List Int → StrtodResult) (g : Globals)
    (arg : List Int) (rest : List (List Int)) (h : arg.headD 0 ≠ 45) :
    main_options strtod g (arg :: rest) = main_strings g (arg :: rest) := by
  rw [main_options]
  simp only [h, if_false]

/-- The id of "Hi" with no flag set. -/
theorem calc_string_id_Hi :
    calc_string_id_simple_nocase 0 (some [72, 105]) = 25 / 81 := by
  norm_num [calc_string_id_simple_nocase, remaining_chars, c_id_remaining, FIRST_CHAR_AL,
    SIMPLE_DIV_BASE]

/-- C12, as stated, fails: the id of "Hi" is `8/27 + 9/729 = 25/81`, which is
more than `1/100` away from `0.29629629629629628318`. -/
theorem calc_string_id_Hi_far_from_stated_value :
    calc_string_id_simple_nocase 0 (some [72, 105]) = 8 / 27 + 9 / 729 ∧
      1 / 100 < |calc_string_id_simple_nocase 0 (some [72, 105])
        - 29629629629629628318 / 10 ^ 20| := by
  rw [calc_string_id_Hi]
  constructor
  · norm_num
  · rw [abs_of_pos (by norm_num)]
    norm_num

/-- C12, amended: for the input "Hi" with no flags the id is
`8/27 + 9/729 = 25/81`, within `10^(-16)` of `0.30864197530864195818`, and
`main` prints this one id and exits with status 0 (whatever the program name
and `strtod`). -/
theorem main_Hi (strtod : List Int → StrtodResult) (prog : List Int) :
    calc_string_id_simple_nocase 0 (some [72, 105]) = 8 / 27 + 9 / 729 ∧
      calc_string_id_simple_nocase 0 (some [72, 105]) = 25 / 81 ∧
      |calc_string_id_simple_nocase 0 (some [72, 105])
        - 30864197530864195818 / 10 ^ 20| < 1 / 10 ^ 16 ∧
      main strtod [prog, [72, 105]] = ([OutputLine.id (Dbl.num (25 / 81))], 0) := by
  refine ⟨?_, calc_string_id_Hi, ?_, ?_⟩
  · rw [calc_string_id_Hi]
    norm_num
  · rw [calc_string_id_Hi, abs_lt]
    constructor <;> norm_num
  · have h := calc_string_id_Hi
    simp only [main, main_options, main_strings, main_string_id, initial_globals]
    simp [SCALE_OUTPUT_RANGE, h]

/-- C13: for the input "a" without `-A` the id is `1/27`, and scaled with the
bounds `(10, 20)` it is `10 + (1/27) * 10 = 280/27`; this is the id `main`
computes for "a" once `-r 10,20` has set the bounds. -/
theorem main_a_scaled_10_20 :
    calc_string_id_simple_nocase 0 (some [97]) = 1 / 27 ∧
      scale_string_id 10 20 (calc_string_id_simple_nocase 0 (some [97]))
        = 10 + 1 / 27 * 10 ∧
      scale_string_id 10 20 (calc_string_id_simple_nocase 0 (some [97])) = 280 / 27 ∧
      main_string_id ⟨SCALE_OUTPUT_RANGE, Dbl.num 10, Dbl.num 20⟩ [97] = Dbl.num (280 / 27) ∧
      main strtod_digits [[], [45, 114], [49, 48, 44, 50, 48], [97]]
        = ([OutputLine.id (Dbl.num (280 / 27))], 0) := by
  have h : calc_string_id_simple_nocase 0 (some [97]) = 1 / 27 := by
    norm_num [calc_string_id_simple_nocase, remaining_chars, c_id_remaining, FIRST_CHAR_AL,
      SIMPLE_DIV_BASE]
  have h2 : calc_string_id_simple_nocase SCALE_OUTPUT_RANGE (some [97]) = 1 / 27 := by
    norm_num [calc_string_id_simple_nocase, remaining_chars, c_id_remaining, FIRST_CHAR_AL,
      SCALE_OUTPUT_RANGE, SIMPLE_DIV_BASE]
  refine ⟨h, ?_, ?_, ?_, ?_⟩
  · rw [h, scale_string_id_eq]
    norm_num
  · rw [h, scale_string_id_eq]
    norm_num
  · simp only [main_string_id, h2]
    rw [scale_string_id_eq]
    norm_num [SCALE_OUTPUT_RANGE]
    decide
  · have hparse : parse_option strtod_digits initial_globals
        [[45, 114], [49, 48, 44, 50, 48], [97]]
        = (2, ⟨SCALE_OUTPUT_RANGE, Dbl.num 10, Dbl.num 20⟩) := by
      simp [parse_option, parse_option_flags, parse_option_range, parse_option_upper,
        strtod_digits, initial_globals, Dbl.isNaN, SCALE_OUTPUT_RANGE, original_lb,
        original_ub]
    rw [main, main_options_option _ _ _ _ (by decide), hparse]
    simp only [List.drop_succ_cons, List.drop_zero]
    rw [if_neg (by decide), main_options_string _ _ _ _ (by decide)]
    simp only [main_strings, main_string_id, h2]
    rw [scale_string_id_eq]
    norm_num [SCALE_OUTPUT_RANGE]
    decide

/-! ## The option parser -/

/-- Leading `'A'` flags only change the globals the rest is parsed with. -/
theorem parse_option_flags_A_prefix (strtod : List Int → StrtodResult)
    (next : List (List Int)) (flagsA rest : List Int) (hA : ∀ c ∈ flagsA, c = 65)
    (g : Globals) :
    ∃ g2 : Globals, parse_option_flags strtod next (flagsA ++ rest) g
      = parse_option_flags strtod next rest g2 := by
  induction flagsA generalizing g with
  | nil => exact ⟨g, rfl⟩
  | cons c l ih =>
    have hc : c = 65 := hA c (List.mem_cons_self c l)
    have hl : ∀ d ∈ l, d = 65 := fun d hd => hA d (List.mem_cons_of_mem c hd)
    subst hc
    obtain ⟨g2, hg2⟩ := ih hl { g with option_flags := g.option_flags ||| FIRST_CHAR_AL }
    refine ⟨g2, ?_⟩
    rw [← hg2]
    simp [parse_option_flags]

/-- A flag character other than `'A'` and `'r'` makes the parser return 0. -/
theorem parse_option_unknown_flag (strtod : List Int → StrtodResult) (g : Globals)
    (flagsA : List Int) (hA : ∀ c ∈ flagsA, c = 65) (c : Int) (rest : List Int)
    (next : List (List Int)) (h0 : c ≠ 0) (hnA : c ≠ 65) (hnr : c ≠ 114) :
    (parse_option strtod g ((45 :: (flagsA ++ c :: rest)) :: next)).1 = 0 := by
  obtain ⟨g2, hg2⟩ := parse_option_flags_A_prefix strtod next flagsA (c :: rest) hA g
  simp [parse_option, hg2, parse_option_flags, h0, hnA, hnr]

/-- A `-r` that ends the last string makes the parser return 0. -/
theorem parse_option_r_without_range (strtod : List Int → StrtodResult) (g : Globals)
    (flagsA : List Int) (hA : ∀ c ∈ flagsA, c = 65) :
    (parse_option strtod g [45 :: (flagsA ++ [114])]).1 = 0 := by
  obtain ⟨g2, hg2⟩ := parse_option_flags_A_prefix strtod [] flagsA [114] hA g
  simp [parse_option, hg2, parse_option_flags]

/-- With a range text attached to `-r` the range is parsed from it, counting
one string. -/
theorem parse_option_r_attached (strtod : List Int → StrtodResult) (g : Globals)
    (flagsA : List Int) (hA : ∀ c ∈ flagsA, c = 65) (range : List Int)
    (next : List (List Int)) (hr : range.headD 0 ≠ 0) :
    ∃ g2 : Globals, parse_option strtod g ((45 :: (flagsA ++ 114 :: range)) :: next)
      = parse_option_range strtod g2 range 1 := by
  obtain ⟨g2, hg2⟩ := parse_option_flags_A_prefix strtod next flagsA (114 :: range) hA g
  refine ⟨g2, ?_⟩
  simp only [parse_option, List.headD_cons, List.tail_cons, hg2, parse_option_flags, hr]
  simp

/-- With nothing attached to `-r` the range is parsed from the next string,
counting two strings. -/
theorem parse_option_r_next (strtod : List Int → StrtodResult) (g : Globals)
    (flagsA : List Int) (hA : ∀ c ∈ flagsA, c = 65) (range : List Int)
    (next : List (List Int)) :
    ∃ g2 : Globals, parse_option strtod g ((45 :: (flagsA ++ [114])) :: range :: next)
      = parse_option_range strtod g2 range 2 := by
  obtain ⟨g2, hg2⟩ := parse_option_flags_A_prefix strtod (range :: next) flagsA [114] hA g
  refine ⟨g2, ?_⟩
  simp [parse_option, hg2, parse_option_flags]

/-- The range parser returns 0 when the lower bound is given and `strtod` sets
`errno`, yields NaN, or stops before anything but a comma. -/
theorem parse_option_range_lower_fails (strtod : List Int → StrtodResult) (g : Globals)
    (range : List Int) (n : Nat) (hc : range.headD 0 ≠ 44)
    (hbad : (strtod range).errno ≠ 0 ∨ (strtod range).value = Dbl.nan ∨
      (strtod range).endptr.headD 0 ≠ 44) :
    (parse_option_range strtod g range n).1 = 0 := by
  have hcond : (strtod range).errno ≠ 0 ∨ (strtod range).value.isNaN = true ∨
      (strtod range).endptr.headD 0 ≠ 44 := by
    rcases hbad with h | h | h
    · exact Or.inl h
    · exact Or.inr (Or.inl (by rw [h]; rfl))
    · exact Or.inr (Or.inr h)
  simp only [parse_option_range, hc, ne_eq, not_false_eq_true, if_true]
  rw [if_pos hcond]

/-- The upper-bound parser returns 0 when the bound is given and `strtod` sets
`errno`, yields NaN, or stops before the end of the text. -/
theorem parse_option_upper_fails (strtod : List Int → StrtodResult) (g : Globals)
    (u : List Int) (n : Nat) (hu : u.headD 0 ≠ 0)
    (hbad : (strtod u).errno ≠ 0 ∨ (strtod u).value = Dbl.nan ∨
      (strtod u).endptr.headD 0 ≠ 0) :
    (parse_option_upper strtod g u n).1 = 0 := by
  have hcond : (strtod u).errno ≠ 0 ∨ (strtod u).value.isNaN = true ∨
      (strtod u).endptr.headD 0 ≠ 0 := by
    rcases hbad with h | h | h
    · exact Or.inl h
    · exact Or.inr (Or.inl (by rw [h]; rfl))
    · exact Or.inr (Or.inr h)
  simp only [parse_option_upper, hu, ne_eq, not_false_eq_true, if_true]
  rw [if_pos hcond]

/-- The range parser returns 0 when the text `u` after the comma is a bad
upper bound, whether the lower bound is omitted or `strtod` stopped at the
comma. -/
theorem parse_option_range_upper_fails (strtod : List Int → StrtodResult) (g : Globals)
    (range u : List Int) (n : Nat)
    (hrange : range = 44 :: u ∨ (range.headD 0 ≠ 44 ∧ (strtod range).endptr = 44 :: u))
    (hu : u.headD 0 ≠ 0)
    (hbad : (strtod u).errno ≠ 0 ∨ (strtod u).value = Dbl.nan ∨
      (strtod u).endptr.headD 0 ≠ 0) :
    (parse_option_range strtod g range n).1 = 0 := by
  rcases hrange with h | ⟨hc, hend⟩
  · subst h
    simp only [parse_option_range, List.headD_cons, ne_eq, not_true_eq_false, if_false,
      List.tail_cons]
    exact parse_option_upper_fails strtod _ u n hu hbad
  · simp only [parse_option_range, hc, ne_eq, not_false_eq_true, if_true]
    split_ifs with hlow
    · rfl
    · rw [hend, List.tail_cons]
      exact parse_option_upper_fails strtod _ u n hu hbad

/-- Setting `SCALE_OUTPUT_RANGE` with `|=` makes the later test of the flag
succeed. -/
theorem scale_flag_set (option_flags : Nat) :
    (option_flags ||| SCALE_OUTPUT_RANGE) &&& SCALE_OUTPUT_RANGE ≠ 0 := by
  have h2 : Nat.testBit 2 1 = true := by decide
  have hs : SCALE_OUTPUT_RANGE = 2 := by decide
  rw [hs]
  have h : ((option_flags ||| 2) &&& 2).testBit 1 = true := by
    simp [Nat.testBit_and, Nat.testBit_or, h2]
  intro h0
  rw [h0] at h
  simp at h

theorem headD_append_of_ne (l r : List Int) (h : l.headD 0 ≠ 0) :
    (l ++ r).headD 0 = l.headD 0 := by
  cases l with
  | nil => exact absurd rfl h
  | cons a l => rfl

/-- The upper-bound parser on a text that is empty (the default stays) or a
number that `strtod` reads to its end. -/
theorem parse_option_upper_ok (strtod : List Int → StrtodResult) (g : Globals)
    (ubt : List Int) (y : ℚ) (n : Nat)
    (hub : (ubt = [] ∧ g.scaled_ub = Dbl.num y) ∨
      (ubt.headD 0 ≠ 0 ∧ ∃ e : List Int, e.headD 0 = 0 ∧ strtod ubt = ⟨Dbl.num y, e, 0⟩)) :
    parse_option_upper strtod g ubt n
      = (n, ⟨g.option_flags ||| SCALE_OUTPUT_RANGE, g.scaled_lb, Dbl.num y⟩) := by
  rcases hub with ⟨hnil, hy⟩ | ⟨h0, e, he, hs⟩
  · subst hnil
    simp [parse_option_upper, ← hy]
  · have hcond : ¬ ((strtod ubt).errno ≠ 0 ∨ (strtod ubt).value.isNaN = true ∨
        (strtod ubt).endptr.headD 0 ≠ 0) := by
      rw [hs]
      simp only [he, Dbl.isNaN]
      simp
    unfold parse_option_upper
    rw [if_pos h0]
    simp only []
    rw [if_neg hcond, hs]

/-- The range parser on a well-formed range text: an omitted bound keeps its
default, a given bound is what `strtod` returns. -/
theorem parse_option_range_ok (strtod : List Int → StrtodResult) (g : Globals)
    (lbt ubt : List Int) (x y : ℚ) (n : Nat)
    (hlb : (lbt = [] ∧ x = original_lb) ∨
      (lbt.headD 0 ≠ 0 ∧ lbt.headD 0 ≠ 44 ∧
        strtod (lbt ++ 44 :: ubt) = ⟨Dbl.num x, 44 :: ubt, 0⟩))
    (hub : (ubt = [] ∧ y = original_ub) ∨
      (ubt.headD 0 ≠ 0 ∧ ∃ e : List Int, e.headD 0 = 0 ∧ strtod ubt = ⟨Dbl.num y, e, 0⟩)) :
    parse_option_range strtod g (lbt ++ 44 :: ubt) n
      = (n, ⟨g.option_flags ||| SCALE_OUTPUT_RANGE, Dbl.num x, Dbl.num y⟩) := by
  have hupper : ∀ g2 : Globals, g2.scaled_ub = Dbl.num original_ub →
      parse_option_upper strtod g2 ubt n
        = (n, ⟨g2.option_flags ||| SCALE_OUTPUT_RANGE, g2.scaled_lb, Dbl.num y⟩) := by
    intro g2 hg2
    apply parse_option_upper_ok
    rcases hub with ⟨hnil, hy⟩ | h
    · exact Or.inl ⟨hnil, by rw [hg2, hy]⟩
    · exact Or.inr h
  rcases hlb with ⟨hnil, hx⟩ | ⟨h0, h44, hs⟩
  · subst hnil
    subst hx
    unfold parse_option_range
    simp only [List.nil_append, List.headD_cons, ne_eq, not_true_eq_false, if_false,
      List.tail_cons]
    rw [hupper _ rfl]
  · have hhead : (lbt ++ 44 :: ubt).headD 0 ≠ 44 := by
      rw [headD_append_of_ne lbt _ h0]
      exact h44
    have hcond : ¬ ((strtod (lbt ++ 44 :: ubt)).errno ≠ 0 ∨
        (strtod (lbt ++ 44 :: ubt)).value.isNaN = true ∨
        (strtod (lbt ++ 44 :: ubt)).endptr.headD 0 ≠ 44) := by
      rw [hs]
      simp [Dbl.isNaN]
    unfold parse_option_range
    rw [if_pos hhead]
    simp only []
    rw [if_neg hcond, hs]
    simp only [List.tail_cons]
    rw [hupper _ rfl]

/-- C14: the range argument of `-r` is `<lower>,<upper>` where either number
may be left out. With `strtod` reading each number that is given (`x` from the
lower text up to the comma, `y` from the upper text up to its end), the parser
sets the bounds to `(x, y)`, an omitted lower bound being `0.0` and an omitted
upper bound `1.0`; it sets `SCALE_OUTPUT_RANGE`, and returns 1 when the range
is attached to `-r` and 2 when it is the next string. -/
theorem parse_option_r_range (strtod : List Int → StrtodResult) (g : Globals)
    (lbt ubt : List Int) (x y : ℚ) (next : List (List Int))
    (hlb : (lbt = [] ∧ x = original_lb) ∨
      (lbt.headD 0 ≠ 0 ∧ lbt.headD 0 ≠ 44 ∧
        strtod (lbt ++ 44 :: ubt) = ⟨Dbl.num x, 44 :: ubt, 0⟩))
    (hub : (ubt = [] ∧ y = original_ub) ∨
      (ubt.headD 0 ≠ 0 ∧ ∃ e : List Int, e.headD 0 = 0 ∧ strtod ubt = ⟨Dbl.num y, e, 0⟩)) :
    parse_option strtod g ((45 :: 114 :: (lbt ++ 44 :: ubt)) :: next)
        = (1, ⟨g.option_flags ||| SCALE_OUTPUT_RANGE, Dbl.num x, Dbl.num y⟩) ∧
      parse_option strtod g ([45, 114] :: (lbt ++ 44 :: ubt) :: next)
        = (2, ⟨g.option_flags ||| SCALE_OUTPUT_RANGE, Dbl.num x, Dbl.num y⟩) ∧
      (g.option_flags ||| SCALE_OUTPUT_RANGE) &&& SCALE_OUTPUT_RANGE ≠ 0 := by
  have hhead : (lbt ++ 44 :: ubt).headD 0 ≠ 0 := by
    rcases hlb with ⟨hnil, _⟩ | ⟨h0, _, _⟩
    · subst hnil
      simp
    · rw [headD_append_of_ne lbt _ h0]
      exact h0
  refine ⟨?_, ?_, scale_flag_set g.option_flags⟩
  · have hstep : parse_option strtod g ((45 :: 114 :: (lbt ++ 44 :: ubt)) :: next)
        = parse_option_range strtod g (lbt ++ 44 :: ubt) 1 := by
      simp only [parse_option, List.headD_cons, List.tail_cons, parse_option_flags, hhead]
      simp
    rw [hstep, parse_option_range_ok strtod g lbt ubt x y 1 hlb hub]
  · have hstep : parse_option strtod g ([45, 114] :: (lbt ++ 44 :: ubt) :: next)
        = parse_option_range strtod g (lbt ++ 44 :: ubt) 2 := by
      simp [parse_option, parse_option_flags]
    rw [hstep, parse_option_range_ok strtod g lbt ubt x y 2 hlb hub]

/-- C14, at `-r` followed by the string "10,20". -/
theorem parse_option_r_range_witness :
    parse_option strtod_digits initial_globals
        [[45, 114], [49, 48] ++ 44 :: [50, 48], [97]]
      = (2, ⟨initial_globals.option_flags ||| SCALE_OUTPUT_RANGE, Dbl.num 10, Dbl.num 20⟩) :=
  (parse_option_r_range strtod_digits initial_globals [49, 48] [50, 48] 10 20 [[97]]
    (Or.inr ⟨by decide, by decide, by simp [strtod_digits]⟩)
    (Or.inr ⟨by decide, [], rfl, by simp [strtod_digits]⟩)).2.1

/-- C15: the parser returns 0 for a malformed option: a flag character other
than `'A'` and `'r'`; a `-r` that ends the last string; a lower bound for which
`strtod` sets `errno`, yields NaN or does not stop at a comma (so also a range
text without the comma); and an upper bound for which `strtod` sets `errno`,
yields NaN or does not reach the end of the text. When the parser returns 0,
`main` prints the usage text and nothing else, and it exits with status 0. -/
theorem parse_option_malformed (strtod : List Int → StrtodResult) (g : Globals)
    (flagsA : List Int) (hA : ∀ c ∈ flagsA, c = 65) (next : List (List Int)) :
    (∀ (c : Int) (rest : List Int), c ≠ 0 → c ≠ 65 → c ≠ 114 →
        (parse_option strtod g ((45 :: (flagsA ++ c :: rest)) :: next)).1 = 0) ∧
      (parse_option strtod g [45 :: (flagsA ++ [114])]).1 = 0 ∧
      (∀ (range : List Int) (args : List (List Int)),
        ((args = (45 :: (flagsA ++ 114 :: range)) :: next ∧ range.headD 0 ≠ 0) ∨
          args = (45 :: (flagsA ++ [114])) :: range :: next) →
        (range.headD 0 ≠ 44 →
          ((strtod range).errno ≠ 0 ∨ (strtod range).value = Dbl.nan ∨
            (strtod range).endptr.headD 0 ≠ 44) →
          (parse_option strtod g args).1 = 0) ∧
        (∀ u : List Int,
          (range = 44 :: u ∨ (range.headD 0 ≠ 44 ∧ (strtod range).endptr = 44 :: u)) →
          u.headD 0 ≠ 0 →
          ((strtod u).errno ≠ 0 ∨ (strtod u).value = Dbl.nan ∨
            (strtod u).endptr.headD 0 ≠ 0) →
          (parse_option strtod g args).1 = 0)) ∧
      (∀ (arg : List Int) (rest : List (List Int)), arg.headD 0 = 45 →
        (parse_option strtod g (arg :: rest)).1 = 0 →
        main_options strtod g (arg :: rest) = [OutputLine.usage]) ∧
      (∀ (prog arg : List Int) (rest : List (List Int)), arg.headD 0 = 45 →
        (parse_option strtod initial_globals (arg :: rest)).1 = 0 →
        main strtod (prog :: arg :: rest) = ([OutputLine.usage], 0)) ∧
      (∀ argv : List (List Int), (main strtod argv).2 = 0) := by
  refine ⟨?_, parse_option_r_without_range strtod g flagsA hA, ?_, ?_, ?_, ?_⟩
  · intro c rest h0 hnA hnr
    exact parse_option_unknown_flag strtod g flagsA hA c rest next h0 hnA hnr
  · intro range args hargs
    have hreach : ∃ (g2 : Globals) (n : Nat),
        parse_option strtod g args = parse_option_range strtod g2 range n := by
      rcases hargs with ⟨h, hr⟩ | h
      · obtain ⟨g2, hg2⟩ := parse_option_r_attached strtod g flagsA hA range next hr
        exact ⟨g2, 1, by rw [h, hg2]⟩
      · obtain ⟨g2, hg2⟩ := parse_option_r_next strtod g flagsA hA range next
        exact ⟨g2, 2, by rw [h, hg2]⟩
    obtain ⟨g2, n, hg2⟩ := hreach
    constructor
    · intro hc hbad
      rw [hg2]
      exact parse_option_range_lower_fails strtod g2 range n hc hbad
    · intro u hrange hu hbad
      rw [hg2]
      exact parse_option_range_upper_fails strtod g2 range u n hrange hu hbad
  · intro arg rest harg hfail
    rw [main_options_option strtod g arg rest harg, if_pos hfail]
  · intro prog arg rest harg hfail
    simp only [main]
    rw [main_options_option strtod initial_globals arg rest harg, if_pos hfail]
  · intro argv
    cases argv <;> rfl

/-- C15, at the option string "-Ax". -/
theorem parse_option_malformed_witness :
    (parse_option strtod_digits initial_globals [45 :: ([65] ++ 120 :: [])]).1 = 0 :=
  (parse_option_malformed strtod_digits initial_globals [65] (by decide) []).1 120 []
    (by decide) (by decide) (by decide)

/-! ## The scaler on doubles -/

/-- With `-A`, the empty string and then "B", the strings lying back to back
in memory: `main` prints `1/351` for the empty string, the id of the "B" after
its terminator over 26, and then `1/26` for "B". -/
theorem main_A_empty_then_B :
    main strtod_digits [[], [45, 65], [0, 66, 0], [66]]
      = ([OutputLine.id (Dbl.num (1 / 351)), OutputLine.id (Dbl.num (1 / 26))], 0) := by
  have hparse : parse_option strtod_digits initial_globals [[45, 65], [0, 66, 0], [66]]
      = (1, ⟨FIRST_CHAR_AL, Dbl.num 0, Dbl.num 0⟩) := by
    simp [parse_option, parse_option_flags, initial_globals, FIRST_CHAR_AL]
  have h1 : calc_string_id_simple_nocase FIRST_CHAR_AL (some [0, 66, 0]) = 1 / 351 := by
    norm_num [calc_string_id_simple_nocase, remaining_chars, c_id_first, c_id_remaining,
      FIRST_CHAR_AL, SIMPLE_DIV_BASE]
  have h2 : calc_string_id_simple_nocase FIRST_CHAR_AL (some [66]) = 1 / 26 := by
    norm_num [calc_string_id_simple_nocase, remaining_chars, c_id_first, c_id_remaining,
      FIRST_CHAR_AL, SIMPLE_DIV_BASE]
  rw [main, main_options_option _ _ _ _ (by decide), hparse]
  simp only [List.drop_succ_cons, List.drop_zero]
  rw [if_neg (by decide), main_options_string _ _ _ _ (by decide)]
  simp only [main_strings, main_string_id, h1, h2]
  simp [FIRST_CHAR_AL, SCALE_OUTPUT_RANGE]

end Alidval
